import Mathlib

/-!
# AcornDB C binding — formal model and verification

A shallow embedding of the AcornDB system described by the repository's
specification and its C binding header `src/Bindings/rust/bindings/c/acorn.h`.
The header declares the binding surface (CRUD, batch operations, transactions,
conflict judges, sync links/tangles, mesh coordination, error reporting); the
bodies behind those declarations are not part of the repository snapshot, so
the operational definitions below are modelled from the specification's own
description of each component, as noted on each definition.  The error-model
definitions near the end are embedded directly from the header, which is
present in the sources.
-/

namespace Acorn

/-! ## Model definitions -/

/-- Modelled from the spec (§7 error taxonomy): NotFound, Conflict,
StorageUnavailable, TransactionAborted, InvalidConfig, plus the BusyError
named in §5. -/
inductive AcornError where
  | notFound
  | conflict
  | storageUnavailable
  | transactionAborted
  | invalidConfig
  | busyError
deriving DecidableEq, Repr

/-- Modelled from the spec (§3 data model): a Nut is a record
`id, payload (JSON bytes), version (monotonic counter), tombstone,
timestamp`.  The optional TTL deadline is omitted: no claim under
verification touches TTL. -/
structure Nut where
  id : String
  payload : String
  version : Nat
  tombstone : Bool
  timestamp : Nat
deriving DecidableEq, Repr

/-- Modelled from the spec (§3): the kind of a change-log entry,
Stash (write) or Toss (delete). -/
inductive ChangeKind where
  | stash
  | toss
deriving DecidableEq, Repr

/-- Modelled from the spec (§3): an append-only change-log entry
`sequence, id, kind, version, timestamp`. -/
structure LogEntry where
  seq : Nat
  id : String
  kind : ChangeKind
  version : Nat
  timestamp : Nat
deriving DecidableEq, Repr

/-- Modelled from the spec (§3): a Tree is a mapping from id to Nut plus an
append-only change log used as the sync cursor source.  `nextSeq` is the
sequence number the next committed mutation will receive. -/
structure Tree where
  nuts : List Nut
  log : List LogEntry
  nextSeq : Nat
deriving DecidableEq, Repr

def emptyTree : Tree := ⟨[], [], 0⟩

/-- Look a nut up by id in a nut list (first match). -/
def findNut (ns : List Nut) (key : String) : Option Nut :=
  ns.find? (fun m => m.id == key)

/-- Look a nut up by id in a tree.  Tombstoned nuts are found here (they are
retained for version comparison, spec §3); visibility filtering happens in
`crack` and `existsId`. -/
def lookupNut (t : Tree) (key : String) : Option Nut :=
  findNut t.nuts key

/-- Replace the first nut with the same id, or append the nut if the id is
new (assoc-list upsert; ids are unique per tree, spec §3). -/
def setNut : List Nut → Nut → List Nut
  | [], n => [n]
  | m :: ms, n => if m.id == n.id then n :: ms else m :: setNut ms n

/-- Modelled from the spec (§4.1 `stash(id, payload)`, §3 invariants): write a
payload under an id; the version strictly increases on every stash to the same
id (tombstoned nuts still carry a version for comparison), and the mutation is
appended to the change log.  The caller supplies the timestamp, standing for
the node clock. -/
def stash (t : Tree) (key payload : String) (ts : Nat) : Tree :=
  let v : Nat :=
    match lookupNut t key with
    | some m => m.version + 1
    | none => 1
  { nuts := setNut t.nuts ⟨key, payload, v, false, ts⟩,
    log := t.log ++ [⟨t.nextSeq, key, ChangeKind.stash, v, ts⟩],
    nextSeq := t.nextSeq + 1 }

/-- Modelled from the spec (§4.1 `delete(id)`, §3 invariants): deleting a
present, live id tombstones it with a bumped version and logs a Toss entry;
deleting a missing (or already tombstoned, hence absent-for-readers) id is a
no-op success. -/
def toss (t : Tree) (key : String) (ts : Nat) : Tree :=
  match lookupNut t key with
  | some m =>
      if m.tombstone then t
      else
        { nuts := setNut t.nuts { m with tombstone := true, version := m.version + 1, timestamp := ts },
          log := t.log ++ [⟨t.nextSeq, key, ChangeKind.toss, m.version + 1, ts⟩],
          nextSeq := t.nextSeq + 1 }
  | none => t

/-- Modelled from the spec (§4.1 `crack(id) → payload`): reading a missing or
tombstoned id fails with NotFound. -/
def crack (t : Tree) (key : String) : Except AcornError String :=
  match lookupNut t key with
  | some m => if m.tombstone then Except.error AcornError.notFound else Except.ok m.payload
  | none => Except.error AcornError.notFound

/-- Modelled from the spec (§4.1 `exists(id) → bool`, §3: a tombstoned id is
absent from `exists`). -/
def existsId (t : Tree) (key : String) : Bool :=
  match lookupNut t key with
  | some m => !m.tombstone
  | none => false

/-- Which side of a conflict wins: the local candidate or the remote
(incoming) one. -/
inductive Winner where
  | loc
  | rem
deriving DecidableEq, Repr

/-- Modelled from the spec (§4.3): the built-in conflict judges — timestamp,
version, local-wins, remote-wins. -/
inductive Judge where
  | timestamp
  | version
  | localWins
  | remoteWins
deriving DecidableEq, Repr

/-- Higher scalar value wins; a tie is broken by a fixed deterministic key.
Modelled from the spec (§4.3): the spec suggests the lexicographically
smaller source-node id as the tie-break key; the Nut record of §3 carries no
source-node field, so the lexicographically smaller payload serves as the
fixed deterministic key here (any total key over the candidate pair gives the
commutativity the spec requires the tie-break to guarantee). -/
def scalarWinner (f : Nut → Nat) (l i : Nut) : Winner :=
  if f i < f l then Winner.loc
  else if f l < f i then Winner.rem
  else if l.payload ≤ i.payload then Winner.loc else Winner.rem

/-- Modelled from the spec (§4.3): which side each built-in judge selects.
Timestamp: higher timestamp wins.  Version: higher version counter wins.
Local-wins / remote-wins: unconditional, ignoring content. -/
def judgeWinner : Judge → Nut → Nut → Winner
  | Judge.timestamp, l, i => scalarWinner (fun n => n.timestamp) l i
  | Judge.version, l, i => scalarWinner (fun n => n.version) l i
  | Judge.localWins, _, _ => Winner.loc
  | Judge.remoteWins, _, _ => Winner.rem

/-- Select the winning nut from a winner tag. -/
def pickWinner (l i : Nut) : Winner → Nut
  | Winner.loc => l
  | Winner.rem => i

/-- Modelled from the spec (§4.3 `resolve(local_nut, incoming_nut) →
winner_nut`): pure, deterministic resolution. -/
def resolveNut (j : Judge) (l i : Nut) : Nut :=
  pickWinner l i (judgeWinner j l i)

/-- Modelled from the spec (§4.1 transactions): a buffered transaction
operation — stash or delete — recorded by `acorn_transaction_stash` /
`acorn_transaction_delete` and applied only at commit. -/
inductive TxnOp where
  | stashOp (key payload : String) (ts : Nat)
  | deleteOp (key : String) (ts : Nat)
deriving DecidableEq, Repr

/-- The in-memory effect of one buffered operation on a tree. -/
def applyTxnOp (t : Tree) : TxnOp → Tree
  | TxnOp.stashOp key payload ts => stash t key payload ts
  | TxnOp.deleteOp key ts => toss t key ts

/-- A per-operation apply that never fails: single-key stash and delete
cannot fail in-memory (failures originate in the out-of-scope storage
backend, spec §6/§7). -/
def pureApplyOp (t : Tree) (op : TxnOp) : Except AcornError Tree :=
  Except.ok (applyTxnOp t op)

/-- Modelled from the spec (§4.1): run the buffered operations in order
through a fallible per-operation apply function (the parameter stands for the
storage backend, which is where a single operation can fail, spec §6/§7);
stops at the first failure. -/
def runTxnOps (applyOp : Tree → TxnOp → Except AcornError Tree) :
    Tree → List TxnOp → Except AcornError Tree
  | t, [] => Except.ok t
  | t, op :: rest =>
      match applyOp t op with
      | Except.ok t2 => runTxnOps applyOp t2 rest
      | Except.error e => Except.error e

/-- Modelled from the spec (§4.1): `commit` applies the buffered operations
atomically — the visible tree after commit is either the tree with every
operation applied (one step, nothing in between is ever a visible state) or,
when any single operation fails, the untouched original tree together with a
TransactionAborted error. -/
def transactionCommit (applyOp : Tree → TxnOp → Except AcornError Tree)
    (t : Tree) (ops : List TxnOp) : Tree × Option AcornError :=
  match runTxnOps applyOp t ops with
  | Except.ok t2 => (t2, none)
  | Except.error _ => (t, some AcornError.transactionAborted)

/-- Modelled from the spec (§4.1): `rollback` discards the buffered
operations; the visible tree is unchanged and no error is reported. -/
def transactionRollback (t : Tree) (_ops : List TxnOp) : Tree × Option AcornError :=
  (t, none)

/-- A backend stand-in for the C4 witness: deleting id `"c"` fails with a
storage error; every other operation succeeds in memory. -/
def failingApplyOp (t : Tree) (op : TxnOp) : Except AcornError Tree :=
  match op with
  | TxnOp.deleteOp "c" _ => Except.error AcornError.storageUnavailable
  | _ => Except.ok (applyTxnOp t op)

/-- Modelled from the header's documented contract for `acorn_batch_crack`
(src/Bindings/rust/bindings/c/acorn.h lines 101–124) and the spec (§4.1 batch
operations are independent single-key operations): the call returns status 0,
and each id is reported individually through a found flag together with its
payload when found. -/
def batchCrack (t : Tree) (ids : List String) : Int × List (Bool × Option String) :=
  (0, ids.map (fun key =>
    match crack t key with
    | Except.ok p => (true, some p)
    | Except.error _ => (false, none)))

/-- Modelled from the spec (§4.6): the mesh coordinator's registry — node ids
in registration order and the edge set in insertion order.  The trees behind
the node ids play no role in topology building. -/
structure Mesh where
  nodes : List String
  edges : List (String × String)
deriving DecidableEq, Repr

/-- Modelled from the spec (§4.6 Custom / `connect(a,b)`): add one edge. -/
def connectNodes (m : Mesh) (x y : String) : Mesh :=
  { m with edges := m.edges ++ [(x, y)] }

/-- Mesh edges are unordered pairs of node ids (spec §3 MeshEdge). -/
def hasEdge (m : Mesh) (x y : String) : Bool :=
  m.edges.any (fun e => (e.1 == x && e.2 == y) || (e.1 == y && e.2 == x))

/-- Modelled from the spec (§4.6 Star): connect a designated hub to every
other registered node, in registration order; fail with InvalidConfig if the
hub id is not registered. -/
def createStar (m : Mesh) (hub : String) : Except AcornError Mesh :=
  if m.nodes.contains hub then
    Except.ok (m.nodes.foldl (fun acc n => if n == hub then acc else connectNodes acc hub n) m)
  else
    Except.error AcornError.invalidConfig

/-- Every registered node other than the hub is connected to the hub. -/
def starConnected (m2 : Mesh) (hub : String) : Bool :=
  m2.nodes.all (fun n => n == hub || hasEdge m2 hub n)

/-- The star builder succeeded and its result keeps the registered nodes and
connects the hub to each of the others. -/
def starOkConnected (m : Mesh) (hub : String) : Bool :=
  match createStar m hub with
  | Except.ok m2 => starConnected m2 hub && (m2.nodes == m.nodes)
  | Except.error _ => false

/-- Modelled from the spec (§4.6 / §7): the result of `synchronize_all` — an
overall success flag, the failed edges with the reason for each failure, and
the edges whose syncs completed. -/
structure SyncAllResult where
  success : Bool
  failed : List ((String × String) × String)
  completed : List (String × String)
deriving DecidableEq, Repr

/-- An edge already recorded as failed during this call. -/
def edgeFailed (r : SyncAllResult) (e : String × String) : Bool :=
  r.failed.any (fun f => f.1 == e)

/-- Modelled from the spec (§4.6): process one edge of a round — an edge that
already failed in this call is skipped; otherwise its sync runs, and a failure
is recorded with its reason while clearing the overall success flag.  The
`syncEdge` parameter stands for the per-edge bidirectional sync, whose I/O
failures originate outside the coordinator (spec §6/§7). -/
def syncPassStep (syncEdge : String × String → Except String Unit)
    (r : SyncAllResult) (e : String × String) : SyncAllResult :=
  if edgeFailed r e then r
  else
    match syncEdge e with
    | Except.ok _ => { r with completed := r.completed ++ [e] }
    | Except.error msg => { r with success := false, failed := r.failed ++ [(e, msg)] }

/-- Modelled from the spec (§4.6): up to a bounded number of rounds, each
round performing one sync per edge in edge insertion order. -/
def syncRounds (syncEdge : String × String → Except String Unit)
    (edges : List (String × String)) : Nat → SyncAllResult → SyncAllResult
  | 0, r => r
  | rounds + 1, r => syncRounds syncEdge edges rounds (edges.foldl (syncPassStep syncEdge) r)

/-- Modelled from the spec (§4.6 `synchronize_all()`). -/
def synchronizeAll (syncEdge : String × String → Except String Unit)
    (edges : List (String × String)) (rounds : Nat) : SyncAllResult :=
  syncRounds syncEdge edges rounds ⟨true, [], []⟩

/-- How many times an edge is recorded in the failure list. -/
def failedCount (r : SyncAllResult) (e : String × String) : Nat :=
  (r.failed.filter (fun f => f.1 == e)).length

/-- A per-edge sync outcome for the C8 witness: the edge `("n1","n2")` fails
with a reason; every other edge succeeds. -/
def demoSyncEdge (e : String × String) : Except String Unit :=
  if e == ("n1", "n2") then Except.error "link down" else Except.ok ()

/-- Modelled from the spec (§4.4): the conflict policy of a sync link —
delegate to a configured judge, or force one direction. -/
inductive ConflictPolicy where
  | useJudge (j : Judge)
  | preferLocal
  | preferRemote
deriving DecidableEq, Repr

/-- Which side the conflict policy selects. -/
def policyWinner : ConflictPolicy → Nut → Nut → Winner
  | ConflictPolicy.useJudge j, l, i => judgeWinner j l i
  | ConflictPolicy.preferLocal, _, _ => Winner.loc
  | ConflictPolicy.preferRemote, _, _ => Winner.rem

/-- Modelled from the spec (§4.4 step 1, §6 remote-tree capability): the ids
changed since a cursor, each id once. -/
def changedIds (t : Tree) (c : Nat) : List String :=
  ((t.log.filter (fun e => c ≤ e.seq)).map (fun e => e.id)).dedup

/-- Modelled from the spec (§6 `apply(id, payload, version, tombstone)` and
§4.4): idempotent upsert/tombstone by version — an incoming change is applied
only when its version is newer than the locally held one; an already-seen
change (same id and version) is skipped by the version comparison.  An
applied change is committed to the change log like any other mutation. -/
def applyChange (t : Tree) (n : Nut) : Tree :=
  let newer : Bool :=
    match lookupNut t n.id with
    | some m => m.version < n.version
    | none => true
  if newer then
    { nuts := setNut t.nuts n,
      log := t.log ++ [⟨t.nextSeq, n.id,
        (if n.tombstone then ChangeKind.toss else ChangeKind.stash), n.version, n.timestamp⟩],
      nextSeq := t.nextSeq + 1 }
  else t

/-- Apply a remote change set (the record sequence of the remote-tree
capability, spec §6) to a tree, in order. -/
def applyChanges (t : Tree) (cs : List Nut) : Tree :=
  cs.foldl applyChange t

/-- Modelled from the spec (§4.4 step 2): push the nut held by `src` under
one changed id to `dst` as an upsert or tombstone with the source version. -/
def pushId (src dst : Tree) (key : String) : Tree :=
  match lookupNut src key with
  | some n => applyChange dst n
  | none => dst

def pushIds (src dst : Tree) (ids : List String) : Tree :=
  ids.foldl (pushId src) dst

/-- Write the policy's winner to the side that does not already hold it,
with the version bumped above both sides' versions so the write takes effect
under version comparison (spec §4.4 step 3). -/
def applyWinner (pol : ConflictPolicy) (p : Tree × Tree) (l r : Nut) : Tree × Tree :=
  match policyWinner pol l r with
  | Winner.loc =>
      (p.1, applyChange p.2 { l with version := max l.version r.version + 1 })
  | Winner.rem =>
      (applyChange p.1 { r with version := max l.version r.version + 1 }, p.2)

/-- Modelled from the spec (§4.4 step 3): for an id changed on both sides
with differing versions, resolve via the conflict policy and write the winner
to the side that does not already hold it.  Equal versions are the same
already-seen change (§4.4 idempotence) and are skipped. -/
def resolveConflictAt (pol : ConflictPolicy) (p : Tree × Tree) (key : String) : Tree × Tree :=
  match lookupNut p.1 key, lookupNut p.2 key with
  | some l, some r =>
      if l.version = r.version then p
      else applyWinner pol p l r
  | _, _ => p

def resolveIds (pol : ConflictPolicy) (p : Tree × Tree) (ids : List String) : Tree × Tree :=
  ids.foldl (resolveConflictAt pol) p

/-- Modelled from the spec (§4.5/§4.4): the state of a bidirectional sync
link (the tangle's two trees and the cursor of each side). -/
structure SyncState where
  a : Tree
  b : Tree
  ca : Nat
  cb : Nat
deriving DecidableEq, Repr

/-- Modelled from the spec (§4.4, one invocation of the sync algorithm in
Bidirectional mode): read the ids changed on each side since its cursor
(step 1); apply ids changed on only one side to the other side as
upserts/tombstones by version (step 2); resolve ids changed on both sides
with differing versions through the conflict policy, writing the winner to
the side not holding it (step 3); advance both cursors to the latest
sequence, the log head — re-invoking with no new changes is then a no-op
(step 4 and the §4.4 idempotence note that cursors end at head). -/
def onlyAList (s : SyncState) : List String :=
  (changedIds s.a s.ca).filter (fun key => !(changedIds s.b s.cb).contains key)

def onlyBList (s : SyncState) : List String :=
  (changedIds s.b s.cb).filter (fun key => !(changedIds s.a s.ca).contains key)

def bothList (s : SyncState) : List String :=
  (changedIds s.a s.ca).filter (fun key => (changedIds s.b s.cb).contains key)

def syncBidirectional (pol : ConflictPolicy) (s : SyncState) : SyncState :=
  let b1 := pushIds s.a s.b (onlyAList s)
  let a1 := pushIds s.b s.a (onlyBList s)
  let p2 := resolveIds pol (a1, b1) (bothList s)
  ⟨p2.1, p2.2, p2.1.nextSeq, p2.2.nextSeq⟩

/-- The outcome of pushing a source-side record onto a destination-side
record: upsert by version (spec §6). -/
def pushResult : Option Nut → Option Nut → Option Nut
  | some n, some m => if m.version < n.version then some n else some m
  | some n, none => some n
  | none, m2 => m2

/-- The outcome of conflict resolution at a single id, on the two records:
equal versions are the same already-seen change (skip); otherwise the
winner's content lands on both sides, with the version bumped on the side
that did not hold it. -/
def winnerResult (pol : ConflictPolicy) (l r : Nut) : Option Nut × Option Nut :=
  match policyWinner pol l r with
  | Winner.loc => (some l, some { l with version := max l.version r.version + 1 })
  | Winner.rem => (some { r with version := max l.version r.version + 1 }, some r)

def conflictResult (pol : ConflictPolicy) : Option Nut → Option Nut → Option Nut × Option Nut
  | some l, some r =>
      if l.version = r.version then (some l, some r)
      else winnerResult pol l r
  | x, y => (x, y)

/-- Every log sequence number is below the tree's next sequence number. -/
def seqBound (t : Tree) : Bool :=
  t.log.all (fun e => e.seq < t.nextSeq)

/-- Every logged id still has a nut (stash and toss both leave one). -/
def logCovered (t : Tree) : Bool :=
  t.log.all (fun e => (lookupNut t e.id).isSome)

/-- Every nut's id appears in the change log (every nut was committed by a
logged mutation). -/
def nutsLogged (t : Tree) : Bool :=
  t.nuts.all (fun n => t.log.any (fun e => e.id == n.id))

/-- Structural well-formedness of a tree as produced by the storage engine
(every mutation commits a log entry, spec §3). -/
def wfTree (t : Tree) : Bool :=
  seqBound t && logCovered t && nutsLogged t

/-- No id is held on both sides at the same version with different content.
The spec's version comparison treats same id + same version as the same
already-seen change (§4.4), which identifies content only under this
condition. -/
def noVersionTie (a b : Tree) : Bool :=
  a.nuts.all (fun l =>
    match lookupNut b l.id with
    | some r =>
        !(l.version == r.version) || (l.payload == r.payload && l.tombstone == r.tombstone)
    | none => true)

/-- Observable agreement of two lookup results: both absent, or both present
with the same payload and tombstone flag. -/
def obsEq : Option Nut → Option Nut → Prop
  | none, none => True
  | some l, some r => l.payload = r.payload ∧ l.tombstone = r.tombstone
  | _, _ => False

/-- The two trees agree observably: identical key sets (`exists`) and
identical read results (`crack`) at every id. -/
def contentEq (a b : Tree) : Prop :=
  ∀ key : String, existsId a key = existsId b key ∧ crack a key = crack b key

/-- The C return type of a binding function, as declared in
`src/Bindings/rust/bindings/c/acorn.h`. -/
inductive CReturn where
  | statusInt
  | constCharPtr
  | voidReturn
deriving DecidableEq, Repr

/-- One function declaration of the C header: its name and declared return
type. -/
structure CFunDecl where
  name : String
  ret : CReturn
deriving DecidableEq, Repr

/-- Embedded from `src/Bindings/rust/bindings/c/acorn.h`: the declarations of
the operations named by the claims under verification, together with the
error-reporting functions of lines 560–563.  Every operation is declared to
return a plain `int` status code (header lines 17–18: 0 on success, 1 on
not-found where applicable, −1 on error); no operation returns a typed
result/error value. -/
def acornHeaderDecls : List CFunDecl := [
  ⟨"acorn_open_tree", CReturn.statusInt⟩,
  ⟨"acorn_close_tree", CReturn.statusInt⟩,
  ⟨"acorn_stash_json", CReturn.statusInt⟩,
  ⟨"acorn_crack_json", CReturn.statusInt⟩,
  ⟨"acorn_delete", CReturn.statusInt⟩,
  ⟨"acorn_exists", CReturn.statusInt⟩,
  ⟨"acorn_count", CReturn.statusInt⟩,
  ⟨"acorn_batch_stash", CReturn.statusInt⟩,
  ⟨"acorn_batch_crack", CReturn.statusInt⟩,
  ⟨"acorn_batch_delete", CReturn.statusInt⟩,
  ⟨"acorn_begin_transaction", CReturn.statusInt⟩,
  ⟨"acorn_transaction_stash", CReturn.statusInt⟩,
  ⟨"acorn_transaction_delete", CReturn.statusInt⟩,
  ⟨"acorn_transaction_commit", CReturn.statusInt⟩,
  ⟨"acorn_transaction_rollback", CReturn.statusInt⟩,
  ⟨"acorn_p2p_create", CReturn.statusInt⟩,
  ⟨"acorn_p2p_sync_bidirectional", CReturn.statusInt⟩,
  ⟨"acorn_tangle_create", CReturn.statusInt⟩,
  ⟨"acorn_tangle_push", CReturn.statusInt⟩,
  ⟨"acorn_tangle_pull", CReturn.statusInt⟩,
  ⟨"acorn_tangle_sync_bidirectional", CReturn.statusInt⟩,
  ⟨"acorn_mesh_create_star", CReturn.statusInt⟩,
  ⟨"acorn_mesh_synchronize_all", CReturn.statusInt⟩,
  ⟨"acorn_mesh_coordinator_create_topology", CReturn.statusInt⟩,
  ⟨"acorn_mesh_coordinator_synchronize_all", CReturn.statusInt⟩,
  ⟨"acorn_conflict_judge_resolve", CReturn.statusInt⟩,
  ⟨"acorn_error_message", CReturn.constCharPtr⟩,
  ⟨"acorn_free_error_string", CReturn.voidReturn⟩]

/-- Embedded from the header comments on lines 17–18 and 560: the last-error
value retrieved with `acorn_error_message()` is documented as a thread-local,
null-terminated UTF-8 string whose pointer is invalidated on the next shim
call — shared mutable state scoped to the thread, set by the previous
operation. -/
def acornLastErrorIsThreadLocal : Bool := true

/-- The header declares a global last-error accessor. -/
def acornHasLastErrorAccessor : Bool :=
  acornHeaderDecls.any (fun f => f.name == "acorn_error_message")

/-! ## Theorems -/

theorem findNut_setNut_self (ns : List Nut) (n : Nut) :
    findNut (setNut ns n) n.id = some n := by
  induction ns with
  | nil => simp [setNut, findNut, List.find?]
  | cons m ms ih =>
      by_cases h : m.id = n.id
      · simp [setNut, findNut, List.find?, h]
      · have hb : (m.id == n.id) = false := by simp [h]
        simp only [setNut, hb, Bool.false_eq_true, if_false]
        simpa [findNut, List.find?, hb] using ih

theorem findNut_setNut_of_id (ns : List Nut) (n : Nut) (key : String)
    (h : n.id = key) : findNut (setNut ns n) key = some n :=
  h ▸ findNut_setNut_self ns n

theorem findNut_setNut_ne (ns : List Nut) (n : Nut) (key : String) (h : key ≠ n.id) :
    findNut (setNut ns n) key = findNut ns key := by
  induction ns with
  | nil =>
      have : (n.id == key) = false := by simp [beq_iff_eq]; exact fun he => h he.symm
      simp [setNut, findNut, List.find?, this]
  | cons m ms ih =>
      by_cases hm : m.id = n.id
      · have hb : (m.id == n.id) = true := by simp [hm]
        have hnk : (n.id == key) = false := by
          simp [beq_iff_eq]; exact fun he => h he.symm
        have hmk : (m.id == key) = false := by
          simp [beq_iff_eq, hm]; exact fun he => h he.symm
        simp [setNut, findNut, List.find?, hb, hnk, hmk]
      · have hb : (m.id == n.id) = false := by simp [hm]
        by_cases hmk : m.id = key
        · have hmkb : (m.id == key) = true := by simp [hmk]
          simp only [setNut, hb, Bool.false_eq_true, if_false, findNut, List.find?, hmkb]
        · have hmkb : (m.id == key) = false := by simp [hmk]
          simp only [setNut, hb, Bool.false_eq_true, if_false]
          simpa [findNut, List.find?, hmkb] using ih

theorem lookupNut_some_id (t : Tree) (key : String) (n : Nut)
    (h : lookupNut t key = some n) : n.id = key := by
  unfold lookupNut findNut at h
  have := List.find?_some h
  simpa [beq_iff_eq] using this

/-- C5.  For every id `k` and payload `v`, `stash(k, v)` followed by
`crack(k)` on the same tree returns exactly `v`. -/
theorem crack_stash_roundtrip (t : Tree) (key payload : String) (ts : Nat) :
    crack (stash t key payload ts) key = Except.ok payload := by
  unfold crack stash lookupNut
  have hset := findNut_setNut_self t.nuts
    ⟨key, payload,
      (match lookupNut t key with
       | some m => m.version + 1
       | none => 1), false, ts⟩
  simp only [lookupNut] at hset
  simp [hset]

/-- C6.  `delete(k)` succeeds even when `k` is absent — deleting a missing id
leaves the tree unchanged (idempotent no-op success) — and after `delete(k)` a
subsequent `crack(k)` fails with NotFound and `exists(k)` returns false. -/
theorem toss_semantics (t : Tree) (key : String) (ts : Nat) :
    crack (toss t key ts) key = Except.error AcornError.notFound ∧
    existsId (toss t key ts) key = false ∧
    (existsId t key = false → toss t key ts = t) := by
  refine ⟨?_, ?_, ?_⟩
  · unfold toss
    cases hl : lookupNut t key with
    | none => simp [crack, hl]
    | some m =>
        by_cases hts : m.tombstone
        · simp [crack, hl, hts]
        · have hid : m.id = key := lookupNut_some_id t key m hl
          have hset := findNut_setNut_of_id t.nuts
            { m with tombstone := true, version := m.version + 1, timestamp := ts } key hid
          simp [crack, lookupNut, hts, hset]
  · unfold toss
    cases hl : lookupNut t key with
    | none => simp [existsId, hl]
    | some m =>
        by_cases hts : m.tombstone
        · simp [existsId, hl, hts]
        · have hid : m.id = key := lookupNut_some_id t key m hl
          have hset := findNut_setNut_of_id t.nuts
            { m with tombstone := true, version := m.version + 1, timestamp := ts } key hid
          simp [existsId, lookupNut, hts, hset]
  · intro hex
    unfold existsId at hex
    unfold toss
    cases hl : lookupNut t key with
    | none => rfl
    | some m =>
        simp only [hl] at hex
        have hts : m.tombstone = true := by
          cases hb : m.tombstone with
          | true => rfl
          | false => simp [hb] at hex
        simp [hts]

/-- Witness for C6 at a concrete input: `"b"` is absent from the one-nut tree,
so deleting it is a no-op, and cracking it after the delete is NotFound. -/
theorem toss_semantics_witness :
    existsId (stash emptyTree "a" "x" 0) "b" = false ∧
    toss (stash emptyTree "a" "x" 0) "b" 7 = stash emptyTree "a" "x" 0 ∧
    crack (toss (stash emptyTree "a" "x" 0) "b" 7) "b" = Except.error AcornError.notFound := by
  refine ⟨by decide, ?_, ?_⟩
  · exact (toss_semantics (stash emptyTree "a" "x" 0) "b" 7).2.2 (by decide)
  · exact (toss_semantics (stash emptyTree "a" "x" 0) "b" 7).1

theorem scalarWinner_payload_comm (f : Nut → Nat) (l i : Nut) :
    (pickWinner l i (scalarWinner f l i)).payload =
    (pickWinner i l (scalarWinner f i l)).payload := by
  unfold scalarWinner pickWinner
  rcases lt_trichotomy (f l) (f i) with hlt | heq | hgt
  · simp [hlt, not_lt.mpr (le_of_lt hlt)]
  · simp only [heq, lt_irrefl, if_false]
    rcases le_total l.payload i.payload with hle | hge
    · by_cases hge2 : i.payload ≤ l.payload
      · have : l.payload = i.payload := le_antisymm hle hge2
        simp [hle, hge2, this]
      · simp [hle, hge2]
    · by_cases hle2 : l.payload ≤ i.payload
      · have : l.payload = i.payload := le_antisymm hle2 hge
        simp [hle2, hge, this]
      · simp [hle2, hge]
  · simp [hgt, not_lt.mpr (le_of_lt hgt)]

/-- C2 counterexample.  Conflict resolution is not commutative for every
judge: the unconditional local-wins judge returns the first argument's
payload, so swapping the candidates swaps the outcome. -/
theorem resolve_comm_counterexample :
    (resolveNut Judge.localWins ⟨"k", "x", 1, false, 0⟩ ⟨"k", "y", 1, false, 0⟩).payload = "x" ∧
    (resolveNut Judge.localWins ⟨"k", "y", 1, false, 0⟩ ⟨"k", "x", 1, false, 0⟩).payload = "y" ∧
    ("x" : String) ≠ "y" := by
  refine ⟨rfl, rfl, by decide⟩

/-- C2 amended.  Conflict resolution is commutative in outcome (the payload of
the winner) for the content-comparing judges — timestamp and version,
including the deterministic tie-break on equal scalars — while the
unconditional local-wins and remote-wins judges are direction-dependent by
design: local-wins always returns the local candidate and remote-wins the
incoming one, so for them resolve(A,B) and resolve(B,A) agree only when the
two candidates carry the same payload. -/
theorem resolve_commutativity (l i : Nut) :
    (resolveNut Judge.timestamp l i).payload = (resolveNut Judge.timestamp i l).payload ∧
    (resolveNut Judge.version l i).payload = (resolveNut Judge.version i l).payload ∧
    resolveNut Judge.localWins l i = l ∧
    resolveNut Judge.remoteWins l i = i := by
  refine ⟨?_, ?_, rfl, rfl⟩
  · exact scalarWinner_payload_comm (fun n => n.timestamp) l i
  · exact scalarWinner_payload_comm (fun n => n.version) l i

theorem runTxnOps_pure (t : Tree) (ops : List TxnOp) :
    runTxnOps pureApplyOp t ops = Except.ok (ops.foldl applyTxnOp t) := by
  induction ops generalizing t with
  | nil => rfl
  | cons op rest ih => simpa [runTxnOps, pureApplyOp, List.foldl] using ih (applyTxnOp t op)

/-- C4.  Transactions are atomic: rollback leaves the tree untouched; if any
single buffered operation fails, commit yields the untouched original tree
with TransactionAborted (nothing is applied); if every operation succeeds,
commit yields in one step the tree with all buffered operations applied — in
particular, with the never-failing in-memory apply, commit produces exactly
the fold of all buffered stashes and deletes over the tree, so no observable
state holds only some of them. -/
theorem transaction_atomicity (applyOp : Tree → TxnOp → Except AcornError Tree)
    (t : Tree) (ops : List TxnOp) :
    (transactionRollback t ops).1 = t ∧
    (∀ e, runTxnOps applyOp t ops = Except.error e →
        transactionCommit applyOp t ops = (t, some AcornError.transactionAborted)) ∧
    (∀ t2, runTxnOps applyOp t ops = Except.ok t2 →
        transactionCommit applyOp t ops = (t2, none)) ∧
    transactionCommit pureApplyOp t ops = (ops.foldl applyTxnOp t, none) := by
  refine ⟨rfl, ?_, ?_, ?_⟩
  · intro e he
    unfold transactionCommit
    rw [he]
  · intro t2 ht
    unfold transactionCommit
    rw [ht]
  · unfold transactionCommit
    rw [runTxnOps_pure]

/-- Witness for C4 at a concrete input: a transaction buffering
stash(a), stash(b), delete(c) whose delete fails is aborted as a whole —
commit reports TransactionAborted and the visible tree is the untouched
original — while the same transaction under the never-failing apply commits
all three operations in one step. -/
theorem transaction_atomicity_witness :
    runTxnOps failingApplyOp emptyTree
        [TxnOp.stashOp "a" "1" 0, TxnOp.stashOp "b" "2" 0, TxnOp.deleteOp "c" 0] =
      Except.error AcornError.storageUnavailable ∧
    transactionCommit failingApplyOp emptyTree
        [TxnOp.stashOp "a" "1" 0, TxnOp.stashOp "b" "2" 0, TxnOp.deleteOp "c" 0] =
      (emptyTree, some AcornError.transactionAborted) ∧
    transactionCommit pureApplyOp emptyTree
        [TxnOp.stashOp "a" "1" 0, TxnOp.stashOp "b" "2" 0, TxnOp.deleteOp "c" 0] =
      ([TxnOp.stashOp "a" "1" 0, TxnOp.stashOp "b" "2" 0,
          TxnOp.deleteOp "c" 0].foldl applyTxnOp emptyTree, none) := by
  refine ⟨rfl, ?_, ?_⟩
  · exact (transaction_atomicity failingApplyOp emptyTree
      [TxnOp.stashOp "a" "1" 0, TxnOp.stashOp "b" "2" 0, TxnOp.deleteOp "c" 0]).2.1
      AcornError.storageUnavailable rfl
  · exact (transaction_atomicity failingApplyOp emptyTree
      [TxnOp.stashOp "a" "1" 0, TxnOp.stashOp "b" "2" 0, TxnOp.deleteOp "c" 0]).2.2.2

theorem existsId_eq_true_of_crack_ok (t : Tree) (key p : String)
    (h : crack t key = Except.ok p) : existsId t key = true := by
  unfold crack at h
  unfold existsId
  cases hl : lookupNut t key with
  | none => simp [hl] at h
  | some m =>
      simp only [hl] at h ⊢
      by_cases hts : m.tombstone
      · simp [hts] at h
      · simp [hts]

theorem existsId_eq_false_of_crack_error (t : Tree) (key : String) (e : AcornError)
    (h : crack t key = Except.error e) : existsId t key = false := by
  unfold crack at h
  unfold existsId
  cases hl : lookupNut t key with
  | none => simp [hl]
  | some m =>
      simp only [hl] at h ⊢
      by_cases hts : m.tombstone
      · simp [hts]
      · simp [hts] at h

/-- C10.  A missing id is not an error for a batch crack: the call as a whole
returns success (status 0) while each id is reported individually — the found
flag is exactly `exists(id)` (1 for found, 0 for not found) and a found id
receives its payload (the successful `crack` result). -/
theorem batch_crack_per_id (t : Tree) (ids : List String) :
    (batchCrack t ids).1 = 0 ∧
    (batchCrack t ids).2 = ids.map (fun key => (existsId t key, (crack t key).toOption)) := by
  refine ⟨rfl, ?_⟩
  unfold batchCrack
  simp only []
  apply List.map_congr_left
  intro key _
  cases hc : crack t key with
  | ok p =>
      rw [existsId_eq_true_of_crack_ok t key p hc]
      rfl
  | error e =>
      rw [existsId_eq_false_of_crack_error t key e hc]
      rfl

theorem hasEdge_connectNodes_mono (m : Mesh) (a b x y : String)
    (h : hasEdge m x y = true) : hasEdge (connectNodes m a b) x y = true := by
  unfold hasEdge at h ⊢
  simp only [connectNodes, List.any_append, h, Bool.true_or]

theorem hasEdge_connectNodes_self (m : Mesh) (x y : String) :
    hasEdge (connectNodes m x y) x y = true := by
  unfold hasEdge connectNodes
  simp [List.any_append, List.any_cons]

theorem starFold_nodes (hub : String) (nodes : List String) (acc : Mesh) :
    (nodes.foldl (fun acc n => if n == hub then acc else connectNodes acc hub n) acc).nodes
      = acc.nodes := by
  induction nodes generalizing acc with
  | nil => rfl
  | cons j rest ih =>
      simp only [List.foldl]
      by_cases hj : j == hub
      · simp only [hj, if_true]; exact ih acc
      · simp only [hj, Bool.false_eq_true, if_false]
        rw [ih (connectNodes acc hub j)]
        rfl

theorem starFold_hasEdge_mono (hub : String) (nodes : List String) (acc : Mesh)
    (x y : String) (h : hasEdge acc x y = true) :
    hasEdge (nodes.foldl (fun acc n => if n == hub then acc else connectNodes acc hub n) acc)
      x y = true := by
  induction nodes generalizing acc with
  | nil => exact h
  | cons j rest ih =>
      simp only [List.foldl]
      by_cases hj : j == hub
      · simp only [hj, if_true]; exact ih acc h
      · simp only [hj, Bool.false_eq_true, if_false]
        exact ih (connectNodes acc hub j) (hasEdge_connectNodes_mono acc hub j x y h)

theorem starFold_connects (hub : String) (nodes : List String) (acc : Mesh)
    (n : String) (hne : ¬ n = hub) :
    n ∈ nodes →
    hasEdge (nodes.foldl (fun acc j => if j == hub then acc else connectNodes acc hub j) acc)
      hub n = true := by
  induction nodes generalizing acc with
  | nil => intro hn; cases hn
  | cons j rest ih =>
      intro hn
      simp only [List.foldl]
      rcases List.mem_cons.mp hn with hj | hrest
      · subst hj
        have hj2 : (n == hub) = false := by simp [hne]
        simp only [hj2, Bool.false_eq_true, if_false]
        exact starFold_hasEdge_mono hub rest (connectNodes acc hub n) hub n
          (hasEdge_connectNodes_self acc hub n)
      · by_cases hj : j == hub
        · simp only [hj, if_true]; exact ih acc hrest
        · simp only [hj, Bool.false_eq_true, if_false]
          exact ih (connectNodes acc hub j) hrest

/-- C7.  Building a star topology fails with InvalidConfig exactly when the
designated hub id is not registered in the mesh; when the hub is known, the
builder keeps the registered nodes and connects the hub to every other
registered node. -/
theorem createStar_ok (m : Mesh) (hub : String) (h : m.nodes.contains hub = true) :
    createStar m hub =
      Except.ok
        (m.nodes.foldl (fun acc n => if n == hub then acc else connectNodes acc hub n) m) := by
  unfold createStar
  rw [h]
  rfl

theorem star_topology (m : Mesh) (hub : String) :
    (createStar m hub = Except.error AcornError.invalidConfig ↔
        m.nodes.contains hub = false) ∧
    (m.nodes.contains hub = true → starOkConnected m hub = true) := by
  constructor
  · constructor
    · intro h
      cases hc : m.nodes.contains hub with
      | false => rfl
      | true =>
          rw [createStar_ok m hub hc] at h
          cases h
    · intro h
      unfold createStar
      rw [h]
      rfl
  · intro h
    unfold starOkConnected
    rw [createStar_ok m hub h]
    have hnodes := starFold_nodes hub m.nodes m
    show (starConnected
        (m.nodes.foldl (fun acc n => if n == hub then acc else connectNodes acc hub n) m) hub
      && ((m.nodes.foldl
            (fun acc n => if n == hub then acc else connectNodes acc hub n) m).nodes
          == m.nodes)) = true
    rw [Bool.and_eq_true]
    constructor
    · unfold starConnected
      rw [List.all_eq_true]
      intro n hn
      rw [hnodes] at hn
      by_cases hne : n = hub
      · have : (n == hub) = true := by simp [hne]
        rw [this, Bool.true_or]
      · have hE := starFold_connects hub m.nodes m n hne hn
        rw [hE, Bool.or_true]
    · rw [hnodes]
      simp

/-- Witness for C7 at a concrete input: hub `"h"` is registered among
`["h", "a", "b"]`, so the builder succeeds and the result connects `"h"` to
`"a"` and `"b"`. -/
theorem star_topology_witness :
    (Mesh.mk ["h", "a", "b"] []).nodes.contains "h" = true ∧
    starOkConnected (Mesh.mk ["h", "a", "b"] []) "h" = true :=
  ⟨by decide, (star_topology (Mesh.mk ["h", "a", "b"] []) "h").2 (by decide)⟩

theorem edgeFailed_eq_false_iff (r : SyncAllResult) (e : String × String) :
    edgeFailed r e = false ↔ failedCount r e = 0 := by
  unfold edgeFailed failedCount
  rw [List.length_eq_zero, List.filter_eq_nil_iff]
  constructor
  · intro h f hf hfe
    have hany : r.failed.any (fun f => f.1 == e) = true := List.any_eq_true.mpr ⟨f, hf, hfe⟩
    rw [h] at hany
    cases hany
  · intro h
    cases hb : r.failed.any (fun f => f.1 == e) with
    | false => rfl
    | true =>
        rcases List.any_eq_true.mp hb with ⟨f, hf, hfe⟩
        exact absurd hfe (h f hf)

theorem failedCount_step_other (f : String × String → Except String Unit)
    (r : SyncAllResult) (e e2 : String × String) (h : e2 ≠ e) :
    failedCount (syncPassStep f r e2) e = failedCount r e := by
  unfold syncPassStep
  by_cases hf : edgeFailed r e2
  · simp [hf]
  · simp only [hf, Bool.false_eq_true, if_false]
    cases hs : f e2 with
    | ok _ => rfl
    | error msg =>
        unfold failedCount
        simp only [List.filter_append]
        have hne : (((e2, msg) : (String × String) × String).1 == e) = false := by
          simp only [beq_eq_false_iff_ne, ne_eq]
          exact h
        have : ((e2, msg) :: []).filter (fun p => p.1 == e) = [] := by
          simp [List.filter, hne]
        simp [this]

theorem failedCount_step_self_zero (f : String × String → Except String Unit)
    (r : SyncAllResult) (e : String × String) (msg : String)
    (h0 : failedCount r e = 0) (he : f e = Except.error msg) :
    failedCount (syncPassStep f r e) e = 1 := by
  unfold syncPassStep
  have hef : edgeFailed r e = false := (edgeFailed_eq_false_iff r e).mpr h0
  simp only [hef, Bool.false_eq_true, if_false, he]
  unfold failedCount at h0 ⊢
  simp only [List.filter_append]
  have : ((e, msg) :: []).filter (fun p => p.1 == e) = [(e, msg)] := by
    simp [List.filter]
  simp [this, h0]

theorem failedCount_step_self_one (f : String × String → Except String Unit)
    (r : SyncAllResult) (e : String × String)
    (h1 : failedCount r e = 1) :
    failedCount (syncPassStep f r e) e = 1 := by
  unfold syncPassStep
  have hef : edgeFailed r e = true := by
    cases hb : edgeFailed r e with
    | true => rfl
    | false => rw [(edgeFailed_eq_false_iff r e).mp hb] at h1; cases h1
  simp [hef, h1]

theorem failedCount_fold_keep (f : String × String → Except String Unit)
    (l : List (String × String)) (r : SyncAllResult) (e : String × String)
    (h1 : failedCount r e = 1) :
    failedCount (l.foldl (syncPassStep f) r) e = 1 := by
  induction l generalizing r with
  | nil => exact h1
  | cons j rest ih =>
      simp only [List.foldl]
      by_cases hj : j = e
      · subst hj
        exact ih _ (failedCount_step_self_one f r j h1)
      · exact ih _ (by rw [failedCount_step_other f r e j hj]; exact h1)

theorem failedCount_fold_records (f : String × String → Except String Unit)
    (l : List (String × String)) (r : SyncAllResult) (e : String × String) (msg : String)
    (he : f e = Except.error msg) (hmem : e ∈ l)
    (h01 : failedCount r e = 0 ∨ failedCount r e = 1) :
    failedCount (l.foldl (syncPassStep f) r) e = 1 := by
  induction l generalizing r with
  | nil => cases hmem
  | cons j rest ih =>
      simp only [List.foldl]
      by_cases hj : j = e
      · subst hj
        rcases h01 with h0 | h1
        · exact failedCount_fold_keep f rest _ j (failedCount_step_self_zero f r j msg h0 he)
        · exact failedCount_fold_keep f rest _ j (failedCount_step_self_one f r j h1)
      · rcases List.mem_cons.mp hmem with hje | hrest
        · exact absurd hje.symm hj
        · exact ih _ hrest (by rw [failedCount_step_other f r e j hj]; exact h01)

theorem failedCount_rounds_keep (f : String × String → Except String Unit)
    (edges : List (String × String)) (rounds : Nat) (r : SyncAllResult)
    (e : String × String) (h1 : failedCount r e = 1) :
    failedCount (syncRounds f edges rounds r) e = 1 := by
  induction rounds generalizing r with
  | zero => exact h1
  | succ k ih =>
      simp only [syncRounds]
      exact ih _ (failedCount_fold_keep f edges r e h1)

theorem completed_step_mono (f : String × String → Except String Unit)
    (r : SyncAllResult) (e e2 : String × String) (h : e ∈ r.completed) :
    e ∈ (syncPassStep f r e2).completed := by
  unfold syncPassStep
  by_cases hf : edgeFailed r e2
  · simp [hf, h]
  · simp only [hf, Bool.false_eq_true, if_false]
    cases f e2 with
    | ok _ => simp [List.mem_append, h]
    | error msg => simpa using h

theorem completed_fold_mono (f : String × String → Except String Unit)
    (l : List (String × String)) (r : SyncAllResult) (e : String × String)
    (h : e ∈ r.completed) : e ∈ (l.foldl (syncPassStep f) r).completed := by
  induction l generalizing r with
  | nil => exact h
  | cons j rest ih => exact ih _ (completed_step_mono f r e j h)

theorem completed_fold_ok (f : String × String → Except String Unit)
    (l : List (String × String)) (r : SyncAllResult) (e : String × String)
    (hok : f e = Except.ok ()) (hmem : e ∈ l) (h0 : failedCount r e = 0) :
    e ∈ (l.foldl (syncPassStep f) r).completed := by
  induction l generalizing r with
  | nil => cases hmem
  | cons j rest ih =>
      simp only [List.foldl]
      by_cases hj : j = e
      · rw [← hj] at h0 hok ⊢
        have hef : edgeFailed r j = false := (edgeFailed_eq_false_iff r j).mpr h0
        have hmem2 : j ∈ (syncPassStep f r j).completed := by
          unfold syncPassStep
          simp only [hef, Bool.false_eq_true, if_false, hok]
          simp [List.mem_append]
        exact completed_fold_mono f rest _ j hmem2
      · rcases List.mem_cons.mp hmem with hje | hrest
        · exact absurd hje.symm hj
        · exact ih _ hrest (by rw [failedCount_step_other f r e j hj]; exact h0)

theorem completed_rounds_mono (f : String × String → Except String Unit)
    (edges : List (String × String)) (rounds : Nat) (r : SyncAllResult)
    (e : String × String) (h : e ∈ r.completed) :
    e ∈ (syncRounds f edges rounds r).completed := by
  induction rounds generalizing r with
  | zero => exact h
  | succ k ih =>
      simp only [syncRounds]
      exact ih _ (completed_fold_mono f edges r e h)

theorem success_invariant_step (f : String × String → Except String Unit)
    (r : SyncAllResult) (e : String × String)
    (h : r.success = r.failed.isEmpty) :
    (syncPassStep f r e).success = (syncPassStep f r e).failed.isEmpty := by
  unfold syncPassStep
  by_cases hf : edgeFailed r e
  · simp [hf, h]
  · simp only [hf, Bool.false_eq_true, if_false]
    cases f e with
    | ok _ => simpa using h
    | error msg =>
        show false = (r.failed ++ [(e, msg)]).isEmpty
        cases hfl : r.failed ++ [(e, msg)] with
        | nil => simp at hfl
        | cons x xs => rfl

theorem success_invariant_fold (f : String × String → Except String Unit)
    (l : List (String × String)) (r : SyncAllResult)
    (h : r.success = r.failed.isEmpty) :
    (l.foldl (syncPassStep f) r).success = (l.foldl (syncPassStep f) r).failed.isEmpty := by
  induction l generalizing r with
  | nil => exact h
  | cons j rest ih => exact ih _ (success_invariant_step f r j h)

theorem success_invariant_rounds (f : String × String → Except String Unit)
    (edges : List (String × String)) (rounds : Nat) (r : SyncAllResult)
    (h : r.success = r.failed.isEmpty) :
    (syncRounds f edges rounds r).success = (syncRounds f edges rounds r).failed.isEmpty := by
  induction rounds generalizing r with
  | zero => exact h
  | succ k ih =>
      simp only [syncRounds]
      exact ih _ (success_invariant_fold f edges r h)

/-- C8.  During `synchronize_all`, errors are isolated per edge: a failing
edge is recorded exactly once — with the reason for its failure — and skipped
for the remainder of that call; every non-failing edge still completes its
sync; and the result carries an overall success flag that is set exactly when
no edge failed, together with the list of failed edges and reasons. -/
theorem synchronize_all_isolation (f : String × String → Except String Unit)
    (edges : List (String × String)) (rounds : Nat) (hr : 1 ≤ rounds) :
    (∀ e msg, e ∈ edges → f e = Except.error msg →
        failedCount (synchronizeAll f edges rounds) e = 1) ∧
    (∀ e, e ∈ edges → f e = Except.ok () →
        e ∈ (synchronizeAll f edges rounds).completed) ∧
    ((synchronizeAll f edges rounds).success = true ↔
        (synchronizeAll f edges rounds).failed = []) := by
  obtain ⟨k, rfl⟩ : ∃ k, rounds = k + 1 := by
    cases rounds with
    | zero => cases hr
    | succ k => exact ⟨k, rfl⟩
  refine ⟨?_, ?_, ?_⟩
  · intro e msg hmem he
    unfold synchronizeAll syncRounds
    exact failedCount_rounds_keep f edges k _ e
      (failedCount_fold_records f edges _ e msg he hmem (Or.inl rfl))
  · intro e hmem hok
    unfold synchronizeAll syncRounds
    exact completed_rounds_mono f edges k _ e
      (completed_fold_ok f edges _ e hok hmem rfl)
  · have := success_invariant_rounds f edges (k + 1) ⟨true, [], []⟩ rfl
    unfold synchronizeAll
    rw [this]
    cases hb : (syncRounds f edges (k + 1) ⟨true, [], []⟩).failed with
    | nil => simp
    | cons x xs => simp

/-- Witness for C8 at a concrete input: with two edges of which the first
fails, two rounds record the failing edge exactly once, the other edge
completes, and the overall success flag is cleared. -/
theorem synchronize_all_isolation_witness :
    failedCount (synchronizeAll demoSyncEdge [("n1", "n2"), ("n2", "n3")] 2) ("n1", "n2") = 1 ∧
    ("n2", "n3") ∈ (synchronizeAll demoSyncEdge [("n1", "n2"), ("n2", "n3")] 2).completed ∧
    ((synchronizeAll demoSyncEdge [("n1", "n2"), ("n2", "n3")] 2).success = true ↔
        (synchronizeAll demoSyncEdge [("n1", "n2"), ("n2", "n3")] 2).failed = []) := by
  refine ⟨?_, ?_, ?_⟩
  · exact (synchronize_all_isolation demoSyncEdge [("n1", "n2"), ("n2", "n3")] 2
      (by decide)).1 ("n1", "n2") "link down" (by decide) rfl
  · exact (synchronize_all_isolation demoSyncEdge [("n1", "n2"), ("n2", "n3")] 2
      (by decide)).2.1 ("n2", "n3") (by decide) rfl
  · exact (synchronize_all_isolation demoSyncEdge [("n1", "n2"), ("n2", "n3")] 2
      (by decide)).2.2

theorem sync_noChanges (pol : ConflictPolicy) (s : SyncState)
    (h1 : changedIds s.a s.ca = []) (h2 : changedIds s.b s.cb = []) :
    syncBidirectional pol s = ⟨s.a, s.b, s.a.nextSeq, s.b.nextSeq⟩ := by
  unfold syncBidirectional onlyAList onlyBList bothList
  rw [h1, h2]
  rfl

theorem lookupNut_applyChange_ne (t : Tree) (n : Nut) (key : String) (h : key ≠ n.id) :
    lookupNut (applyChange t n) key = lookupNut t key := by
  unfold applyChange
  cases hl : lookupNut t n.id with
  | some m =>
      by_cases hv : m.version < n.version
      · simp only [hl, hv, decide_True, if_true]
        exact findNut_setNut_ne t.nuts n key h
      · simp only [hl, hv, decide_False, Bool.false_eq_true, if_false]
  | none =>
      simp only [hl, if_true]
      exact findNut_setNut_ne t.nuts n key h

theorem lookupNut_applyChange_self (t : Tree) (n : Nut) :
    lookupNut (applyChange t n) n.id =
      match lookupNut t n.id with
      | some m => if m.version < n.version then some n else some m
      | none => some n := by
  unfold applyChange
  cases hl : lookupNut t n.id with
  | some m =>
      by_cases hv : m.version < n.version
      · simp only [hl, hv, decide_True, if_true]
        exact findNut_setNut_self t.nuts n
      · simp only [hl, hv, decide_False, Bool.false_eq_true, if_false]
  | none =>
      simp only [hl, if_true]
      exact findNut_setNut_self t.nuts n

theorem applyChange_skip (t : Tree) (n m : Nut)
    (hl : lookupNut t n.id = some m) (hv : ¬ m.version < n.version) :
    applyChange t n = t := by
  unfold applyChange
  simp only [hl, hv, decide_False, Bool.false_eq_true, if_false]

theorem lookupNut_applyChange_version_mono (t : Tree) (n : Nut) (key : String) (m : Nut)
    (hl : lookupNut t key = some m) :
    ∃ m2, lookupNut (applyChange t n) key = some m2 ∧ m.version ≤ m2.version := by
  by_cases hk : key = n.id
  · subst hk
    rw [lookupNut_applyChange_self, hl]
    by_cases hv : m.version < n.version
    · exact ⟨n, by simp [hv], Nat.le_of_lt hv⟩
    · exact ⟨m, by simp [hv], Nat.le_refl _⟩
  · exact ⟨m, by rw [lookupNut_applyChange_ne t n key hk]; exact hl, Nat.le_refl _⟩

theorem lookupNut_applyChanges_version_mono (t : Tree) (cs : List Nut) (key : String) (m : Nut)
    (hl : lookupNut t key = some m) :
    ∃ m2, lookupNut (applyChanges t cs) key = some m2 ∧ m.version ≤ m2.version := by
  induction cs generalizing t m with
  | nil => exact ⟨m, hl, Nat.le_refl _⟩
  | cons c rest ih =>
      obtain ⟨m1, hm1, hv1⟩ := lookupNut_applyChange_version_mono t c key m hl
      obtain ⟨m2, hm2, hv2⟩ := ih (applyChange t c) m1 hm1
      exact ⟨m2, hm2, Nat.le_trans hv1 hv2⟩

theorem lookupNut_applyChanges_covers (t : Tree) (cs : List Nut) (c : Nut) (hc : c ∈ cs) :
    ∃ m, lookupNut (applyChanges t cs) c.id = some m ∧ c.version ≤ m.version := by
  induction cs generalizing t with
  | nil => cases hc
  | cons c0 rest ih =>
      rcases List.mem_cons.mp hc with hc0 | hrest
      · subst hc0
        have hfirst : ∃ m1, lookupNut (applyChange t c) c.id = some m1 ∧ c.version ≤ m1.version := by
          rw [lookupNut_applyChange_self]
          cases hl : lookupNut t c.id with
          | some m =>
              by_cases hv : m.version < c.version
              · exact ⟨c, by simp [hv], Nat.le_refl _⟩
              · exact ⟨m, by simp [hv], Nat.le_of_not_lt hv⟩
          | none => exact ⟨c, by simp, Nat.le_refl _⟩
        obtain ⟨m1, hm1, hv1⟩ := hfirst
        obtain ⟨m2, hm2, hv2⟩ :=
          lookupNut_applyChanges_version_mono (applyChange t c) rest c.id m1 hm1
        exact ⟨m2, hm2, Nat.le_trans hv1 hv2⟩
      · exact ih (applyChange t c0) hrest

theorem applyChanges_of_all_skip (t : Tree) (cs : List Nut)
    (h : ∀ c ∈ cs, applyChange t c = t) : applyChanges t cs = t := by
  induction cs with
  | nil => rfl
  | cons c rest ih =>
      unfold applyChanges
      simp only [List.foldl]
      rw [h c (List.mem_cons_self c rest)]
      exact ih (fun c2 hc2 => h c2 (List.mem_cons_of_mem c hc2))

/-- C3.  Sync application is idempotent: applying an identical remote change
set a second time leaves the tree unchanged after the second application; an
already-seen change (same id and version) is skipped by version comparison
and never applied twice; and re-invoking sync with no new changes leaves both
trees unchanged — a full no-op when the cursors are already at the log
heads. -/
theorem sync_idempotence (t : Tree) (cs : List Nut) (n m : Nut)
    (pol : ConflictPolicy) (s : SyncState) :
    applyChanges (applyChanges t cs) cs = applyChanges t cs ∧
    (lookupNut t n.id = some m → m.version = n.version → applyChange t n = t) ∧
    (changedIds s.a s.ca = [] → changedIds s.b s.cb = [] →
      ((syncBidirectional pol s).a = s.a ∧ (syncBidirectional pol s).b = s.b ∧
        (s.ca = s.a.nextSeq → s.cb = s.b.nextSeq → syncBidirectional pol s = s))) := by
  refine ⟨?_, ?_, ?_⟩
  · apply applyChanges_of_all_skip
    intro c hc
    obtain ⟨m2, hm2, hv2⟩ := lookupNut_applyChanges_covers t cs c hc
    exact applyChange_skip (applyChanges t cs) c m2 hm2 (Nat.not_lt_of_le hv2)
  · intro hl hv
    exact applyChange_skip t n m hl (by rw [hv]; exact Nat.lt_irrefl _)
  · intro hca hcb
    have hfix := sync_noChanges pol s hca hcb
    refine ⟨by rw [hfix], by rw [hfix], ?_⟩
    intro h1 h2
    rw [hfix]
    cases s with
    | mk a b ca cb =>
        simp only at h1 h2
        rw [h1, h2]

/-- Witness for C3 at concrete inputs: a change carrying the version already
held under its id is skipped, and a sync whose cursors are at the log heads
(no new changes on either side) is a no-op. -/
theorem sync_idempotence_witness :
    lookupNut (stash emptyTree "k" "v" 0) "k" = some ⟨"k", "v", 1, false, 0⟩ ∧
    applyChange (stash emptyTree "k" "v" 0) ⟨"k", "w", 1, false, 5⟩ = stash emptyTree "k" "v" 0 ∧
    changedIds (stash emptyTree "k" "v" 0) 1 = [] ∧
    syncBidirectional ConflictPolicy.preferLocal ⟨stash emptyTree "k" "v" 0, emptyTree, 1, 0⟩ =
      ⟨stash emptyTree "k" "v" 0, emptyTree, 1, 0⟩ := by
  refine ⟨by decide, ?_, by decide, ?_⟩
  · exact (sync_idempotence (stash emptyTree "k" "v" 0) [] ⟨"k", "w", 1, false, 5⟩
      ⟨"k", "v", 1, false, 0⟩ ConflictPolicy.preferLocal
      ⟨emptyTree, emptyTree, 0, 0⟩).2.1 (by decide) (by decide)
  · exact ((sync_idempotence emptyTree [] ⟨"k", "w", 1, false, 5⟩ ⟨"k", "v", 1, false, 0⟩
      ConflictPolicy.preferLocal
      ⟨stash emptyTree "k" "v" 0, emptyTree, 1, 0⟩).2.2 (by decide) (by decide)).2.2
      (by decide) (by decide)

theorem lookupNut_pushId_ne (src dst : Tree) (j key : String) (h : key ≠ j) :
    lookupNut (pushId src dst j) key = lookupNut dst key := by
  unfold pushId
  cases hl : lookupNut src j with
  | some n =>
      have hid : n.id = j := lookupNut_some_id src j n hl
      exact lookupNut_applyChange_ne dst n key (fun he => h (he.trans hid))
  | none => rfl

theorem lookupNut_pushId_self (src dst : Tree) (key : String) :
    lookupNut (pushId src dst key) key = pushResult (lookupNut src key) (lookupNut dst key) := by
  unfold pushId
  cases hl : lookupNut src key with
  | some n =>
      have hid : n.id = key := lookupNut_some_id src key n hl
      have hself := lookupNut_applyChange_self dst n
      rw [hid] at hself
      rw [hself]
      cases hd : lookupNut dst key with
      | some m => rfl
      | none => rfl
  | none => rfl

theorem lookupNut_pushIds_notMem (src : Tree) (ids : List String) (key : String) :
    ∀ dst, key ∉ ids → lookupNut (pushIds src dst ids) key = lookupNut dst key := by
  induction ids with
  | nil => intro dst _; rfl
  | cons j rest ih =>
      intro dst h
      have h1 : pushIds src dst (j :: rest) = pushIds src (pushId src dst j) rest := rfl
      rw [h1, ih (pushId src dst j) (fun hr => h (List.mem_cons_of_mem j hr))]
      exact lookupNut_pushId_ne src dst j key
        (fun he => h (by rw [he]; exact List.mem_cons_self j rest))

theorem lookupNut_pushIds_mem (src : Tree) (ids : List String) (key : String) :
    ∀ dst, key ∈ ids → ids.Nodup →
      lookupNut (pushIds src dst ids) key = pushResult (lookupNut src key) (lookupNut dst key) := by
  induction ids with
  | nil => intro dst hmem _; cases hmem
  | cons j rest ih =>
      intro dst hmem hnd
      have h1 : pushIds src dst (j :: rest) = pushIds src (pushId src dst j) rest := rfl
      rw [h1]
      rcases List.mem_cons.mp hmem with hk | hrest
      · rw [hk]
        have hnotin : j ∉ rest := (List.nodup_cons.mp hnd).1
        rw [lookupNut_pushIds_notMem src rest j (pushId src dst j) hnotin]
        exact lookupNut_pushId_self src dst j
      · have hjk : key ≠ j := by
          intro he
          exact (List.nodup_cons.mp hnd).1 (by rw [← he]; exact hrest)
        rw [ih (pushId src dst j) hrest (List.nodup_cons.mp hnd).2,
          lookupNut_pushId_ne src dst j key hjk]

theorem applyWinner_loc (pol : ConflictPolicy) (p : Tree × Tree) (l r : Nut)
    (h : policyWinner pol l r = Winner.loc) :
    applyWinner pol p l r =
      (p.1, applyChange p.2 { l with version := max l.version r.version + 1 }) := by
  unfold applyWinner
  rw [h]

theorem applyWinner_rem (pol : ConflictPolicy) (p : Tree × Tree) (l r : Nut)
    (h : policyWinner pol l r = Winner.rem) :
    applyWinner pol p l r =
      (applyChange p.1 { r with version := max l.version r.version + 1 }, p.2) := by
  unfold applyWinner
  rw [h]

theorem winnerResult_loc (pol : ConflictPolicy) (l r : Nut)
    (h : policyWinner pol l r = Winner.loc) :
    winnerResult pol l r = (some l, some { l with version := max l.version r.version + 1 }) := by
  unfold winnerResult
  rw [h]

theorem winnerResult_rem (pol : ConflictPolicy) (l r : Nut)
    (h : policyWinner pol l r = Winner.rem) :
    winnerResult pol l r = (some { r with version := max l.version r.version + 1 }, some r) := by
  unfold winnerResult
  rw [h]

theorem resolveConflictAt_eq_both (pol : ConflictPolicy) (p : Tree × Tree) (key : String)
    (l r : Nut) (hl : lookupNut p.1 key = some l) (hr : lookupNut p.2 key = some r) :
    resolveConflictAt pol p key =
      if l.version = r.version then p else applyWinner pol p l r := by
  unfold resolveConflictAt
  rw [hl, hr]

theorem resolveConflictAt_eq_left_none (pol : ConflictPolicy) (p : Tree × Tree) (key : String)
    (hl : lookupNut p.1 key = none) : resolveConflictAt pol p key = p := by
  unfold resolveConflictAt
  rw [hl]

theorem resolveConflictAt_eq_right_none (pol : ConflictPolicy) (p : Tree × Tree) (key : String)
    (l : Nut) (hl : lookupNut p.1 key = some l) (hr : lookupNut p.2 key = none) :
    resolveConflictAt pol p key = p := by
  unfold resolveConflictAt
  rw [hl, hr]

theorem conflictResult_both (pol : ConflictPolicy) (l r : Nut) :
    conflictResult pol (some l) (some r) =
      if l.version = r.version then (some l, some r) else winnerResult pol l r := rfl

theorem lookupNut_applyChange_write (t : Tree) (n m : Nut)
    (hl : lookupNut t n.id = some m) (hv : m.version < n.version) :
    lookupNut (applyChange t n) n.id = some n := by
  rw [lookupNut_applyChange_self, hl]
  simp [hv]

theorem lookupNut_resolveAt_ne (pol : ConflictPolicy) (p : Tree × Tree) (j key : String)
    (h : key ≠ j) :
    lookupNut (resolveConflictAt pol p j).1 key = lookupNut p.1 key ∧
    lookupNut (resolveConflictAt pol p j).2 key = lookupNut p.2 key := by
  cases hl : lookupNut p.1 j with
  | none =>
      rw [resolveConflictAt_eq_left_none pol p j hl]
      exact ⟨rfl, rfl⟩
  | some l =>
      cases hr : lookupNut p.2 j with
      | none =>
          rw [resolveConflictAt_eq_right_none pol p j l hl hr]
          exact ⟨rfl, rfl⟩
      | some r =>
          rw [resolveConflictAt_eq_both pol p j l r hl hr]
          have hlid : l.id = j := lookupNut_some_id p.1 j l hl
          have hrid : r.id = j := lookupNut_some_id p.2 j r hr
          by_cases hv : l.version = r.version
          · rw [if_pos hv]
            exact ⟨rfl, rfl⟩
          · rw [if_neg hv]
            cases hw : policyWinner pol l r with
            | loc =>
                rw [applyWinner_loc pol p l r hw]
                refine ⟨rfl, ?_⟩
                exact lookupNut_applyChange_ne p.2 _ key (fun he => h (he.trans hlid))
            | rem =>
                rw [applyWinner_rem pol p l r hw]
                refine ⟨?_, rfl⟩
                exact lookupNut_applyChange_ne p.1 _ key (fun he => h (he.trans hrid))

theorem lookupNut_resolveAt_self (pol : ConflictPolicy) (p : Tree × Tree) (key : String) :
    lookupNut (resolveConflictAt pol p key).1 key =
      (conflictResult pol (lookupNut p.1 key) (lookupNut p.2 key)).1 ∧
    lookupNut (resolveConflictAt pol p key).2 key =
      (conflictResult pol (lookupNut p.1 key) (lookupNut p.2 key)).2 := by
  cases hl : lookupNut p.1 key with
  | none =>
      rw [resolveConflictAt_eq_left_none pol p key hl]
      cases hr : lookupNut p.2 key with
      | none => exact ⟨hl, rfl⟩
      | some r => exact ⟨hl, rfl⟩
  | some l =>
      cases hr : lookupNut p.2 key with
      | none =>
          rw [resolveConflictAt_eq_right_none pol p key l hl hr]
          exact ⟨hl, hr⟩
      | some r =>
          rw [resolveConflictAt_eq_both pol p key l r hl hr, conflictResult_both pol l r]
          have hlid : l.id = key := lookupNut_some_id p.1 key l hl
          have hrid : r.id = key := lookupNut_some_id p.2 key r hr
          by_cases hv : l.version = r.version
          · rw [if_pos hv, if_pos hv]
            exact ⟨hl, hr⟩
          · rw [if_neg hv, if_neg hv]
            cases hw : policyWinner pol l r with
            | loc =>
                rw [applyWinner_loc pol p l r hw, winnerResult_loc pol l r hw]
                refine ⟨hl, ?_⟩
                have hl2 : lookupNut p.2 l.id = some r := by rw [hlid]; exact hr
                have hwr := lookupNut_applyChange_write p.2
                  { l with version := max l.version r.version + 1 } r hl2
                  (Nat.lt_succ_of_le (Nat.le_max_right _ _))
                rw [← hlid]
                exact hwr
            | rem =>
                rw [applyWinner_rem pol p l r hw, winnerResult_rem pol l r hw]
                refine ⟨?_, hr⟩
                have hr2 : lookupNut p.1 r.id = some l := by rw [hrid]; exact hl
                have hwr := lookupNut_applyChange_write p.1
                  { r with version := max l.version r.version + 1 } l hr2
                  (Nat.lt_succ_of_le (Nat.le_max_left _ _))
                rw [← hrid]
                exact hwr

theorem lookupNut_resolveIds_notMem (pol : ConflictPolicy) (ids : List String) (key : String) :
    ∀ p : Tree × Tree, key ∉ ids →
      lookupNut (resolveIds pol p ids).1 key = lookupNut p.1 key ∧
      lookupNut (resolveIds pol p ids).2 key = lookupNut p.2 key := by
  induction ids with
  | nil => intro p _; exact ⟨rfl, rfl⟩
  | cons j rest ih =>
      intro p h
      have h1 : resolveIds pol p (j :: rest) = resolveIds pol (resolveConflictAt pol p j) rest :=
        rfl
      rw [h1]
      have hjk : key ≠ j := fun he => h (by rw [he]; exact List.mem_cons_self j rest)
      obtain ⟨e1, e2⟩ := ih (resolveConflictAt pol p j) (fun hr => h (List.mem_cons_of_mem j hr))
      obtain ⟨f1, f2⟩ := lookupNut_resolveAt_ne pol p j key hjk
      exact ⟨e1.trans f1, e2.trans f2⟩

theorem lookupNut_resolveIds_mem (pol : ConflictPolicy) (ids : List String) (key : String) :
    ∀ p : Tree × Tree, key ∈ ids → ids.Nodup →
      lookupNut (resolveIds pol p ids).1 key =
        (conflictResult pol (lookupNut p.1 key) (lookupNut p.2 key)).1 ∧
      lookupNut (resolveIds pol p ids).2 key =
        (conflictResult pol (lookupNut p.1 key) (lookupNut p.2 key)).2 := by
  induction ids with
  | nil => intro p hmem _; cases hmem
  | cons j rest ih =>
      intro p hmem hnd
      have h1 : resolveIds pol p (j :: rest) = resolveIds pol (resolveConflictAt pol p j) rest :=
        rfl
      rw [h1]
      rcases List.mem_cons.mp hmem with hk | hrest
      · rw [hk]
        have hnotin : j ∉ rest := (List.nodup_cons.mp hnd).1
        obtain ⟨e1, e2⟩ :=
          lookupNut_resolveIds_notMem pol rest j (resolveConflictAt pol p j) hnotin
        obtain ⟨s1, s2⟩ := lookupNut_resolveAt_self pol p j
        exact ⟨e1.trans s1, e2.trans s2⟩
      · have hjk : key ≠ j := by
          intro he
          exact (List.nodup_cons.mp hnd).1 (by rw [← he]; exact hrest)
        obtain ⟨e1, e2⟩ := ih (resolveConflictAt pol p j) hrest (List.nodup_cons.mp hnd).2
        obtain ⟨f1, f2⟩ := lookupNut_resolveAt_ne pol p j key hjk
        rw [f1, f2] at e1 e2
        exact ⟨e1, e2⟩

theorem obsEq_observables (a b : Tree) (key : String)
    (h : obsEq (lookupNut a key) (lookupNut b key)) :
    existsId a key = existsId b key ∧ crack a key = crack b key := by
  unfold existsId crack
  cases hl : lookupNut a key with
  | none =>
      cases hr : lookupNut b key with
      | none => exact ⟨rfl, rfl⟩
      | some r =>
          rw [hl, hr] at h
          exact absurd h (fun hc => hc)
  | some l =>
      cases hr : lookupNut b key with
      | none =>
          rw [hl, hr] at h
          exact absurd h (fun hc => hc)
      | some r =>
          rw [hl, hr] at h
          obtain ⟨hp, ht⟩ := h
          constructor
          · show (!l.tombstone) = (!r.tombstone)
            rw [ht]
          · show (if l.tombstone then Except.error AcornError.notFound
                else Except.ok l.payload) =
              (if r.tombstone then Except.error AcornError.notFound else Except.ok r.payload)
            rw [hp, ht]

theorem wfTree_seqBound (t : Tree) (h : wfTree t = true) : seqBound t = true := by
  unfold wfTree at h
  rw [Bool.and_eq_true, Bool.and_eq_true] at h
  exact h.1.1

theorem applyChange_cases (t : Tree) (n : Nut) :
    applyChange t n = t ∨
    applyChange t n =
      { nuts := setNut t.nuts n,
        log := t.log ++ [⟨t.nextSeq, n.id,
          (if n.tombstone then ChangeKind.toss else ChangeKind.stash), n.version, n.timestamp⟩],
        nextSeq := t.nextSeq + 1 } := by
  unfold applyChange
  cases hl : lookupNut t n.id with
  | some m =>
      by_cases hv : m.version < n.version
      · right; simp [hv]
      · left; simp [hv]
  | none => right; rfl

theorem seqBound_applyChange (t : Tree) (n : Nut) (h : seqBound t = true) :
    seqBound (applyChange t n) = true := by
  rcases applyChange_cases t n with he | he
  · rw [he]; exact h
  · rw [he]
    unfold seqBound at h ⊢
    rw [List.all_eq_true] at h ⊢
    intro e he2
    rcases List.mem_append.mp he2 with h1 | h1
    · have h3 := h e h1
      simp only [decide_eq_true_eq] at h3 ⊢
      omega
    · rcases List.mem_singleton.mp h1 with rfl
      simp only [decide_eq_true_eq]
      omega

theorem seqBound_pushId (src dst : Tree) (j : String) (h : seqBound dst = true) :
    seqBound (pushId src dst j) = true := by
  unfold pushId
  cases lookupNut src j with
  | some n => exact seqBound_applyChange dst n h
  | none => exact h

theorem seqBound_pushIds (src : Tree) (ids : List String) :
    ∀ dst, seqBound dst = true → seqBound (pushIds src dst ids) = true := by
  induction ids with
  | nil => intro dst h; exact h
  | cons j rest ih =>
      intro dst h
      exact ih (pushId src dst j) (seqBound_pushId src dst j h)

theorem seqBound_resolveAt (pol : ConflictPolicy) (p : Tree × Tree) (j : String)
    (h1 : seqBound p.1 = true) (h2 : seqBound p.2 = true) :
    seqBound (resolveConflictAt pol p j).1 = true ∧
    seqBound (resolveConflictAt pol p j).2 = true := by
  cases hl : lookupNut p.1 j with
  | none =>
      rw [resolveConflictAt_eq_left_none pol p j hl]
      exact ⟨h1, h2⟩
  | some l =>
      cases hr : lookupNut p.2 j with
      | none =>
          rw [resolveConflictAt_eq_right_none pol p j l hl hr]
          exact ⟨h1, h2⟩
      | some r =>
          rw [resolveConflictAt_eq_both pol p j l r hl hr]
          by_cases hv : l.version = r.version
          · rw [if_pos hv]; exact ⟨h1, h2⟩
          · rw [if_neg hv]
            cases hw : policyWinner pol l r with
            | loc =>
                rw [applyWinner_loc pol p l r hw]
                exact ⟨h1, seqBound_applyChange p.2 _ h2⟩
            | rem =>
                rw [applyWinner_rem pol p l r hw]
                exact ⟨seqBound_applyChange p.1 _ h1, h2⟩

theorem seqBound_resolveIds (pol : ConflictPolicy) (ids : List String) :
    ∀ p : Tree × Tree, seqBound p.1 = true → seqBound p.2 = true →
      seqBound (resolveIds pol p ids).1 = true ∧ seqBound (resolveIds pol p ids).2 = true := by
  induction ids with
  | nil => intro p h1 h2; exact ⟨h1, h2⟩
  | cons j rest ih =>
      intro p h1 h2
      obtain ⟨g1, g2⟩ := seqBound_resolveAt pol p j h1 h2
      exact ih (resolveConflictAt pol p j) g1 g2

theorem changedIds_nextSeq (t : Tree) (h : seqBound t = true) :
    changedIds t t.nextSeq = [] := by
  unfold changedIds
  have hfil : t.log.filter (fun e => decide (t.nextSeq ≤ e.seq)) = [] := by
    rw [List.filter_eq_nil_iff]
    intro e he hdec
    unfold seqBound at h
    rw [List.all_eq_true] at h
    have h1 := h e he
    simp only [decide_eq_true_eq] at h1 hdec
    omega
  rw [hfil]
  rfl

theorem syncBidirectional_fixed (pol : ConflictPolicy) (s : SyncState)
    (hsa : seqBound s.a = true) (hsb : seqBound s.b = true)
    (hca : s.ca = s.a.nextSeq) (hcb : s.cb = s.b.nextSeq) :
    syncBidirectional pol s = s := by
  have h1 : changedIds s.a s.ca = [] := by rw [hca]; exact changedIds_nextSeq s.a hsa
  have h2 : changedIds s.b s.cb = [] := by rw [hcb]; exact changedIds_nextSeq s.b hsb
  rw [sync_noChanges pol s h1 h2]
  cases s with
  | mk a b ca cb =>
      simp only at hca hcb
      rw [hca, hcb]

theorem seqBound_sync (pol : ConflictPolicy) (s : SyncState)
    (hsa : seqBound s.a = true) (hsb : seqBound s.b = true) :
    seqBound (syncBidirectional pol s).a = true ∧
    seqBound (syncBidirectional pol s).b = true := by
  have hb1 : seqBound (pushIds s.a s.b (onlyAList s)) = true :=
    seqBound_pushIds s.a (onlyAList s) s.b hsb
  have ha1 : seqBound (pushIds s.b s.a (onlyBList s)) = true :=
    seqBound_pushIds s.b (onlyBList s) s.a hsa
  exact seqBound_resolveIds pol (bothList s)
    (pushIds s.b s.a (onlyBList s), pushIds s.a s.b (onlyAList s)) ha1 hb1

theorem changedIds_nodup (t : Tree) (c : Nat) : (changedIds t c).Nodup :=
  List.nodup_dedup _

theorem onlyAList_nodup (s : SyncState) : (onlyAList s).Nodup :=
  (changedIds_nodup _ _).filter _

theorem onlyBList_nodup (s : SyncState) : (onlyBList s).Nodup :=
  (changedIds_nodup _ _).filter _

theorem bothList_nodup (s : SyncState) : (bothList s).Nodup :=
  (changedIds_nodup _ _).filter _

theorem mem_changedIds_zero (t : Tree) (key : String) :
    key ∈ changedIds t 0 ↔ ∃ e ∈ t.log, e.id = key := by
  unfold changedIds
  rw [List.mem_dedup, List.mem_map]
  constructor
  · rintro ⟨e, he, rfl⟩
    exact ⟨e, (List.mem_filter.mp he).1, rfl⟩
  · rintro ⟨e, he, hid⟩
    exact ⟨e, List.mem_filter.mpr ⟨he, by simp⟩, hid⟩

theorem lookupNut_isSome_iff (t : Tree) (key : String) (hwf : wfTree t = true) :
    (lookupNut t key).isSome = true ↔ ∃ e ∈ t.log, e.id = key := by
  unfold wfTree at hwf
  rw [Bool.and_eq_true, Bool.and_eq_true] at hwf
  obtain ⟨⟨hsb, hlc⟩, hnl⟩ := hwf
  constructor
  · intro h
    cases hl : lookupNut t key with
    | none => rw [hl] at h; cases h
    | some n =>
        have hl2 : t.nuts.find? (fun m => m.id == key) = some n := hl
        have hn : n ∈ t.nuts := List.mem_of_find?_eq_some hl2
        have hid : n.id = key := lookupNut_some_id t key n hl
        unfold nutsLogged at hnl
        rw [List.all_eq_true] at hnl
        rcases List.any_eq_true.mp (hnl n hn) with ⟨e, he, heid⟩
        rw [beq_iff_eq] at heid
        exact ⟨e, he, heid.trans hid⟩
  · rintro ⟨e, he, hid⟩
    unfold logCovered at hlc
    rw [List.all_eq_true] at hlc
    have h1 := hlc e he
    rw [hid] at h1
    exact h1

theorem mem_changedIds_zero_iff (t : Tree) (hwf : wfTree t = true) (key : String) :
    key ∈ changedIds t 0 ↔ (lookupNut t key).isSome = true :=
  (mem_changedIds_zero t key).trans (lookupNut_isSome_iff t key hwf).symm

theorem noVersionTie_spec (a b : Tree) (hv : noVersionTie a b = true) (key : String)
    (l r : Nut) (hl : lookupNut a key = some l) (hr : lookupNut b key = some r)
    (hvv : l.version = r.version) :
    l.payload = r.payload ∧ l.tombstone = r.tombstone := by
  unfold noVersionTie at hv
  rw [List.all_eq_true] at hv
  have hl2 : a.nuts.find? (fun m => m.id == key) = some l := hl
  have hlmem : l ∈ a.nuts := List.mem_of_find?_eq_some hl2
  have hlid : l.id = key := lookupNut_some_id a key l hl
  have h1 := hv l hlmem
  rw [hlid, hr] at h1
  rw [Bool.or_eq_true] at h1
  rcases h1 with hne | heq
  · exfalso
    rw [hvv] at hne
    simp at hne
  · rw [Bool.and_eq_true] at heq
    exact ⟨by simpa using heq.1, by simpa using heq.2⟩

theorem mem_onlyAList_iff (s : SyncState) (key : String) :
    key ∈ onlyAList s ↔ key ∈ changedIds s.a s.ca ∧ key ∉ changedIds s.b s.cb := by
  unfold onlyAList
  rw [List.mem_filter]
  constructor
  · rintro ⟨h1, h2⟩
    refine ⟨h1, ?_⟩
    intro hmem
    have hc : (changedIds s.b s.cb).contains key = true := by simpa using hmem
    rw [hc] at h2
    cases h2
  · rintro ⟨h1, h2⟩
    refine ⟨h1, ?_⟩
    have hc : (changedIds s.b s.cb).contains key = false := by simpa using h2
    rw [hc]
    rfl

theorem mem_onlyBList_iff (s : SyncState) (key : String) :
    key ∈ onlyBList s ↔ key ∈ changedIds s.b s.cb ∧ key ∉ changedIds s.a s.ca := by
  unfold onlyBList
  rw [List.mem_filter]
  constructor
  · rintro ⟨h1, h2⟩
    refine ⟨h1, ?_⟩
    intro hmem
    have hc : (changedIds s.a s.ca).contains key = true := by simpa using hmem
    rw [hc] at h2
    cases h2
  · rintro ⟨h1, h2⟩
    refine ⟨h1, ?_⟩
    have hc : (changedIds s.a s.ca).contains key = false := by simpa using h2
    rw [hc]
    rfl

theorem mem_bothList_iff (s : SyncState) (key : String) :
    key ∈ bothList s ↔ key ∈ changedIds s.a s.ca ∧ key ∈ changedIds s.b s.cb := by
  unfold bothList
  rw [List.mem_filter]
  constructor
  · rintro ⟨h1, h2⟩
    exact ⟨h1, by simpa using h2⟩
  · rintro ⟨h1, h2⟩
    exact ⟨h1, by simpa using h2⟩

theorem sync_converges_obsEq (pol : ConflictPolicy) (a b : Tree)
    (ha : wfTree a = true) (hb : wfTree b = true) (hv : noVersionTie a b = true)
    (key : String) :
    obsEq (lookupNut (syncBidirectional pol ⟨a, b, 0, 0⟩).a key)
      (lookupNut (syncBidirectional pol ⟨a, b, 0, 0⟩).b key) := by
  have hsa : (syncBidirectional pol ⟨a, b, 0, 0⟩).a =
      (resolveIds pol
        (pushIds b a (onlyBList ⟨a, b, 0, 0⟩), pushIds a b (onlyAList ⟨a, b, 0, 0⟩))
        (bothList ⟨a, b, 0, 0⟩)).1 := rfl
  have hsb : (syncBidirectional pol ⟨a, b, 0, 0⟩).b =
      (resolveIds pol
        (pushIds b a (onlyBList ⟨a, b, 0, 0⟩), pushIds a b (onlyAList ⟨a, b, 0, 0⟩))
        (bothList ⟨a, b, 0, 0⟩)).2 := rfl
  rw [hsa, hsb]
  have hmemA : key ∈ changedIds a 0 ↔ (lookupNut a key).isSome = true :=
    mem_changedIds_zero_iff a ha key
  have hmemB : key ∈ changedIds b 0 ↔ (lookupNut b key).isSome = true :=
    mem_changedIds_zero_iff b hb key
  cases hA : lookupNut a key with
  | none =>
      have hka : key ∉ changedIds a 0 := by
        intro hk
        have h1 := hmemA.mp hk
        rw [hA] at h1
        cases h1
      cases hB : lookupNut b key with
      | none =>
          have hkb : key ∉ changedIds b 0 := by
            intro hk
            have h1 := hmemB.mp hk
            rw [hB] at h1
            cases h1
          have hnb : key ∉ bothList ⟨a, b, 0, 0⟩ :=
            fun hm => hka ((mem_bothList_iff ⟨a, b, 0, 0⟩ key).mp hm).1
          have hnoa : key ∉ onlyAList ⟨a, b, 0, 0⟩ :=
            fun hm => hka ((mem_onlyAList_iff ⟨a, b, 0, 0⟩ key).mp hm).1
          have hnob : key ∉ onlyBList ⟨a, b, 0, 0⟩ :=
            fun hm => hkb ((mem_onlyBList_iff ⟨a, b, 0, 0⟩ key).mp hm).1
          obtain ⟨e1, e2⟩ := lookupNut_resolveIds_notMem pol (bothList ⟨a, b, 0, 0⟩) key
            (pushIds b a (onlyBList ⟨a, b, 0, 0⟩), pushIds a b (onlyAList ⟨a, b, 0, 0⟩)) hnb
          rw [e1, e2,
            lookupNut_pushIds_notMem b (onlyBList ⟨a, b, 0, 0⟩) key a hnob,
            lookupNut_pushIds_notMem a (onlyAList ⟨a, b, 0, 0⟩) key b hnoa, hA, hB]
          trivial
      | some r =>
          have hkb : key ∈ changedIds b 0 := hmemB.mpr (by rw [hB]; rfl)
          have hnb : key ∉ bothList ⟨a, b, 0, 0⟩ :=
            fun hm => hka ((mem_bothList_iff ⟨a, b, 0, 0⟩ key).mp hm).1
          have hnoa : key ∉ onlyAList ⟨a, b, 0, 0⟩ :=
            fun hm => hka ((mem_onlyAList_iff ⟨a, b, 0, 0⟩ key).mp hm).1
          have hob : key ∈ onlyBList ⟨a, b, 0, 0⟩ :=
            (mem_onlyBList_iff ⟨a, b, 0, 0⟩ key).mpr ⟨hkb, hka⟩
          obtain ⟨e1, e2⟩ := lookupNut_resolveIds_notMem pol (bothList ⟨a, b, 0, 0⟩) key
            (pushIds b a (onlyBList ⟨a, b, 0, 0⟩), pushIds a b (onlyAList ⟨a, b, 0, 0⟩)) hnb
          have ha1 : lookupNut (pushIds b a (onlyBList ⟨a, b, 0, 0⟩)) key = some r := by
            rw [lookupNut_pushIds_mem b (onlyBList ⟨a, b, 0, 0⟩) key a hob
              (onlyBList_nodup ⟨a, b, 0, 0⟩), hA, hB]
            rfl
          have hb1 : lookupNut (pushIds a b (onlyAList ⟨a, b, 0, 0⟩)) key = some r := by
            rw [lookupNut_pushIds_notMem a (onlyAList ⟨a, b, 0, 0⟩) key b hnoa]
            exact hB
          rw [e1, e2, ha1, hb1]
          exact ⟨rfl, rfl⟩
  | some l =>
      have hka : key ∈ changedIds a 0 := hmemA.mpr (by rw [hA]; rfl)
      cases hB : lookupNut b key with
      | none =>
          have hkb : key ∉ changedIds b 0 := by
            intro hk
            have h1 := hmemB.mp hk
            rw [hB] at h1
            cases h1
          have hnb : key ∉ bothList ⟨a, b, 0, 0⟩ :=
            fun hm => hkb ((mem_bothList_iff ⟨a, b, 0, 0⟩ key).mp hm).2
          have hnob : key ∉ onlyBList ⟨a, b, 0, 0⟩ :=
            fun hm => hkb ((mem_onlyBList_iff ⟨a, b, 0, 0⟩ key).mp hm).1
          have hoa : key ∈ onlyAList ⟨a, b, 0, 0⟩ :=
            (mem_onlyAList_iff ⟨a, b, 0, 0⟩ key).mpr ⟨hka, hkb⟩
          obtain ⟨e1, e2⟩ := lookupNut_resolveIds_notMem pol (bothList ⟨a, b, 0, 0⟩) key
            (pushIds b a (onlyBList ⟨a, b, 0, 0⟩), pushIds a b (onlyAList ⟨a, b, 0, 0⟩)) hnb
          have ha1 : lookupNut (pushIds b a (onlyBList ⟨a, b, 0, 0⟩)) key = some l := by
            rw [lookupNut_pushIds_notMem b (onlyBList ⟨a, b, 0, 0⟩) key a hnob]
            exact hA
          have hb1 : lookupNut (pushIds a b (onlyAList ⟨a, b, 0, 0⟩)) key = some l := by
            rw [lookupNut_pushIds_mem a (onlyAList ⟨a, b, 0, 0⟩) key b hoa
              (onlyAList_nodup ⟨a, b, 0, 0⟩), hA, hB]
            rfl
          rw [e1, e2, ha1, hb1]
          exact ⟨rfl, rfl⟩
      | some r =>
          have hkb : key ∈ changedIds b 0 := hmemB.mpr (by rw [hB]; rfl)
          have hbothm : key ∈ bothList ⟨a, b, 0, 0⟩ :=
            (mem_bothList_iff ⟨a, b, 0, 0⟩ key).mpr ⟨hka, hkb⟩
          have hnoa : key ∉ onlyAList ⟨a, b, 0, 0⟩ :=
            fun hm => ((mem_onlyAList_iff ⟨a, b, 0, 0⟩ key).mp hm).2 hkb
          have hnob : key ∉ onlyBList ⟨a, b, 0, 0⟩ :=
            fun hm => ((mem_onlyBList_iff ⟨a, b, 0, 0⟩ key).mp hm).2 hka
          have ha1 : lookupNut (pushIds b a (onlyBList ⟨a, b, 0, 0⟩)) key = some l := by
            rw [lookupNut_pushIds_notMem b (onlyBList ⟨a, b, 0, 0⟩) key a hnob]
            exact hA
          have hb1 : lookupNut (pushIds a b (onlyAList ⟨a, b, 0, 0⟩)) key = some r := by
            rw [lookupNut_pushIds_notMem a (onlyAList ⟨a, b, 0, 0⟩) key b hnoa]
            exact hB
          obtain ⟨e1, e2⟩ := lookupNut_resolveIds_mem pol (bothList ⟨a, b, 0, 0⟩) key
            (pushIds b a (onlyBList ⟨a, b, 0, 0⟩), pushIds a b (onlyAList ⟨a, b, 0, 0⟩))
            hbothm (bothList_nodup ⟨a, b, 0, 0⟩)
          rw [ha1, hb1] at e1 e2
          rw [e1, e2, conflictResult_both pol l r]
          by_cases hvv : l.version = r.version
          · rw [if_pos hvv]
            exact noVersionTie_spec a b hv key l r hA hB hvv
          · rw [if_neg hvv]
            cases hw : policyWinner pol l r with
            | loc =>
                rw [winnerResult_loc pol l r hw]
                exact ⟨rfl, rfl⟩
            | rem =>
                rw [winnerResult_rem pol l r hw]
                exact ⟨rfl, rfl⟩

/-- C1 counterexample.  Two freshly linked trees that each independently
stashed the same id once — reaching the same version 1 with different
payloads — never converge: the sync algorithm's version comparison treats an
id changed on both sides with equal versions as the same already-seen change
(spec §4.4, step 3 applies only to differing versions), so the first sync
call only advances the cursors, every further call is a strict fixed point,
and the two trees keep the different values "x" and "y" forever. -/
theorem sync_convergence_counterexample :
    syncBidirectional (ConflictPolicy.useJudge Judge.timestamp)
        ⟨stash emptyTree "k" "x" 0, stash emptyTree "k" "y" 0, 0, 0⟩ =
      ⟨stash emptyTree "k" "x" 0, stash emptyTree "k" "y" 0, 1, 1⟩ ∧
    syncBidirectional (ConflictPolicy.useJudge Judge.timestamp)
        ⟨stash emptyTree "k" "x" 0, stash emptyTree "k" "y" 0, 1, 1⟩ =
      ⟨stash emptyTree "k" "x" 0, stash emptyTree "k" "y" 0, 1, 1⟩ ∧
    crack (stash emptyTree "k" "x" 0) "k" = Except.ok "x" ∧
    crack (stash emptyTree "k" "y" 0) "k" = Except.ok "y" ∧
    ("x" : String) ≠ "y" := by
  refine ⟨by decide, by decide, rfl, rfl, by decide⟩

/-- C1 (amended).  For every conflict policy and every pair of well-formed
trees linked by a fresh bidirectional sync link (cursors at zero), provided
no id is held on both sides at the same version with different content, a
single `sync_bidirectional` invocation already leaves the two trees with
identical key sets and identical values, and the resulting state is a fixed
point: a further invocation changes neither tree nor the cursors. -/
theorem sync_convergence (pol : ConflictPolicy) (a b : Tree)
    (ha : wfTree a = true) (hb : wfTree b = true) (hv : noVersionTie a b = true) :
    contentEq (syncBidirectional pol ⟨a, b, 0, 0⟩).a (syncBidirectional pol ⟨a, b, 0, 0⟩).b ∧
    syncBidirectional pol (syncBidirectional pol ⟨a, b, 0, 0⟩) =
      syncBidirectional pol ⟨a, b, 0, 0⟩ := by
  constructor
  · intro key
    exact obsEq_observables _ _ key (sync_converges_obsEq pol a b ha hb hv key)
  · obtain ⟨g1, g2⟩ :=
      seqBound_sync pol ⟨a, b, 0, 0⟩ (wfTree_seqBound a ha) (wfTree_seqBound b hb)
    exact syncBidirectional_fixed pol _ g1 g2 rfl rfl

/-- Witness for C1 at concrete inputs: tree `a` holds "j" and "k" (version 1
each), tree `b` holds "k" at version 2 with a different payload; the trees
are well formed and version-tie-free, so the amended convergence theorem
applies. -/
theorem sync_convergence_witness :
    wfTree (stash (stash emptyTree "j" "w" 0) "k" "v1" 1) = true ∧
    wfTree (stash (stash emptyTree "k" "u" 3) "k" "v2" 4) = true ∧
    noVersionTie (stash (stash emptyTree "j" "w" 0) "k" "v1" 1)
      (stash (stash emptyTree "k" "u" 3) "k" "v2" 4) = true ∧
    (contentEq
        (syncBidirectional ConflictPolicy.preferLocal
          ⟨stash (stash emptyTree "j" "w" 0) "k" "v1" 1,
            stash (stash emptyTree "k" "u" 3) "k" "v2" 4, 0, 0⟩).a
        (syncBidirectional ConflictPolicy.preferLocal
          ⟨stash (stash emptyTree "j" "w" 0) "k" "v1" 1,
            stash (stash emptyTree "k" "u" 3) "k" "v2" 4, 0, 0⟩).b ∧
      syncBidirectional ConflictPolicy.preferLocal
          (syncBidirectional ConflictPolicy.preferLocal
            ⟨stash (stash emptyTree "j" "w" 0) "k" "v1" 1,
              stash (stash emptyTree "k" "u" 3) "k" "v2" 4, 0, 0⟩) =
        syncBidirectional ConflictPolicy.preferLocal
          ⟨stash (stash emptyTree "j" "w" 0) "k" "v1" 1,
            stash (stash emptyTree "k" "u" 3) "k" "v2" 4, 0, 0⟩) :=
  ⟨by decide, by decide, by decide,
    sync_convergence ConflictPolicy.preferLocal
      (stash (stash emptyTree "j" "w" 0) "k" "v1" 1)
      (stash (stash emptyTree "k" "u" 3) "k" "v2" 4)
      (by decide) (by decide) (by decide)⟩

/-- C9 counterexample.  The binding surface under `src/` does declare a
shared, thread-locally scoped last-error string: `acorn_error_message`
(header lines 17–18 and 560–563).  The claim that no such shared error state
exists — that each operation returns its error as a typed value — is false
for this code: retrieving the error detail of any operation goes through the
thread-local string left by the previous call. -/
theorem error_reporting_counterexample :
    acornHasLastErrorAccessor = true ∧
    acornLastErrorIsThreadLocal = true ∧
    CFunDecl.mk "acorn_error_message" CReturn.constCharPtr ∈ acornHeaderDecls ∧
    (acornHeaderDecls.filter (fun f => f.name == "acorn_crack_json")).all
      (fun f => f.ret == CReturn.statusInt) = true := by
  refine ⟨rfl, rfl, by decide, by decide⟩

/-- C9 amended.  Operations of the C binding surface return plain `int`
status codes (0 success, 1 not-found where applicable, −1 error) rather than
typed result/error values, and the error detail is reported through the
shared thread-local last-error string retrieved with `acorn_error_message()`;
the spec's design note (§9) prescribes replacing this with typed per-operation
results in a reimplementation, but in the code under `src/` the thread-local
last-error mechanism is present. -/
theorem error_reporting_model :
    acornHeaderDecls.all (fun f =>
      f.name == "acorn_error_message" || f.name == "acorn_free_error_string" ||
      f.ret == CReturn.statusInt) = true ∧
    acornHasLastErrorAccessor = true ∧
    acornLastErrorIsThreadLocal = true := by
  refine ⟨by decide, rfl, rfl⟩

end Acorn
